import Mathlib

/-!
Shallow embedding of `src/minesweeper.py` (the `Sentence` and `MinesweeperAI`
classes) and verification of the specification's claims about it.

Python `set`s of board cells are modelled as `Finset Cell` with
`Cell := ℤ × ℤ` (Python integers can be negative; out-of-board offsets are
filtered by an explicit membership test, as in the source).  Python's
arbitrary-choice `set.pop()` is modelled by `pick`, which chooses the least
element in lexicographic order; every property proved about a `pick` result
only uses membership, so the particular deterministic choice is irrelevant.
Counts are `ℤ` because the Python code can drive a count negative.
-/

abbrev Cell : Type := ℤ × ℤ

/-- Lexicographic order on cells, used to make Python's arbitrary set
iteration/`pop` order deterministic in the model. -/
def cellLe (a b : Cell) : Prop :=
  a.1 < b.1 ∨ (a.1 = b.1 ∧ a.2 ≤ b.2)

instance cellLe.instDecidableRel : DecidableRel cellLe := fun a b =>
  inferInstanceAs (Decidable (a.1 < b.1 ∨ (a.1 = b.1 ∧ a.2 ≤ b.2)))

instance cellLe.instIsTrans : IsTrans Cell cellLe := by
  constructor
  intro a b c hab hbc
  unfold cellLe at *
  omega

instance cellLe.instIsAntisymm : IsAntisymm Cell cellLe := by
  constructor
  intro a b hab hba
  obtain ⟨a1, a2⟩ := a
  obtain ⟨b1, b2⟩ := b
  unfold cellLe at *
  simp only [Prod.mk.injEq]
  constructor <;> omega

instance cellLe.instIsTotal : IsTotal Cell cellLe := by
  constructor
  intro a b
  unfold cellLe
  omega

/-- The elements of a finset of cells as a `cellLe`-sorted list.  This
replaces `Finset.sort` (whose merge sort is defined by well-founded recursion
and does not reduce inside the kernel) with the structurally recursive
insertion sort, so that concrete engine runs can be evaluated by `decide`. -/
def sortCells (s : Finset Cell) : List Cell :=
  Quot.liftOn s.val (fun l => l.insertionSort cellLe)
    (fun _ _ h =>
      List.eq_of_perm_of_sorted
        ((List.perm_insertionSort cellLe _).trans
          (h.trans (List.perm_insertionSort cellLe _).symm))
        (List.sorted_insertionSort cellLe _)
        (List.sorted_insertionSort cellLe _))

theorem mem_sortCells {s : Finset Cell} {c : Cell} :
    c ∈ sortCells s ↔ c ∈ s := by
  rcases s with ⟨m, hm⟩
  induction m using Quot.inductionOn
  exact (List.mem_insertionSort cellLe).trans Iff.rfl

theorem length_sortCells (s : Finset Cell) :
    (sortCells s).length = s.card := by
  rcases s with ⟨m, hm⟩
  induction m using Quot.inductionOn
  exact List.length_insertionSort cellLe _

/-- Model of Python `set.pop()`: some element of the set (the least one in
`cellLe` order), or `none` on the empty set. -/
def pick (s : Finset Cell) : Option Cell :=
  (sortCells s).head?

theorem pick_mem {s : Finset Cell} {c : Cell} (h : pick s = some c) : c ∈ s := by
  unfold pick at h
  rcases hl : sortCells s with _ | ⟨x, xs⟩
  · rw [hl] at h; simp at h
  · rw [hl] at h
    simp only [List.head?] at h
    have hx : x ∈ sortCells s := by rw [hl]; exact List.mem_cons_self x xs
    rw [mem_sortCells] at hx
    cases h
    exact hx

theorem pick_eq_none_iff {s : Finset Cell} : pick s = none ↔ s = ∅ := by
  unfold pick
  rcases hl : sortCells s with _ | ⟨x, xs⟩
  · simp only [List.head?]
    constructor
    · intro _
      have := length_sortCells s
      rw [hl] at this
      simp at this
      exact Finset.card_eq_zero.mp this.symm
    · intro _; trivial
  · simp only [List.head?]
    constructor
    · intro h; cases h
    · intro h
      have hx : x ∈ sortCells s := by rw [hl]; exact List.mem_cons_self x xs
      rw [mem_sortCells, h] at hx
      cases hx

theorem pick_isSome_of_ne_empty {s : Finset Cell} (h : s ≠ ∅) :
    ∃ c, pick s = some c := by
  rcases hp : pick s with _ | c
  · exact absurd (pick_eq_none_iff.mp hp) h
  · exact ⟨c, rfl⟩

/-! ## The `Sentence` class (src/minesweeper.py, lines 87-140) -/

/-- `Sentence(cells, count)`: a set of board cells and a count of how many of
them are mines.  `count` is an integer (it can go negative in the source,
see `Sentence.mark_mine`).  Python's `__eq__` compares `cells` and `count`,
which coincides with structural equality here. -/
structure Sentence where
  cells : Finset Cell
  count : ℤ
  deriving DecidableEq

/-- `Sentence.known_mines` (lines 104-111), translated exactly as written:
it returns `self.cells` when `self.count == 0` and the empty set otherwise.
(Its docstring promises the cells known to be *mines*; the body computes the
cells a zero-count sentence proves *safe* — the bodies of `known_mines` and
`known_safes` are swapped in the source.) -/
def Sentence.known_mines (s : Sentence) : Finset Cell :=
  if s.count = 0 then s.cells else ∅

/-- `Sentence.known_safes` (lines 114-121), translated exactly as written:
it returns `self.cells` when `self.count > 0 and self.count == len(self.cells)`
and the empty set otherwise. -/
def Sentence.known_safes (s : Sentence) : Finset Cell :=
  if 0 < s.count ∧ s.count = (s.cells.card : ℤ) then s.cells else ∅

/-- `Sentence.mark_mine` (lines 124-131): if the cell is a member, discard it
and decrement `count` (no lower bound check — `count` can become negative). -/
def Sentence.mark_mine (s : Sentence) (c : Cell) : Sentence :=
  if c ∈ s.cells then ⟨s.cells.erase c, s.count - 1⟩ else s

/-- `Sentence.mark_safe` (lines 133-140): if the cell is a member, discard it
(`count` unchanged). -/
def Sentence.mark_safe (s : Sentence) (c : Cell) : Sentence :=
  if c ∈ s.cells then ⟨s.cells.erase c, s.count⟩ else s

/-! ## The `MinesweeperAI` class (src/minesweeper.py, lines 142-399) -/

/-- The mutable state of a `MinesweeperAI` instance: board dimensions,
`moves_made`, `safes`, `mines`, and the `knowledge` list of sentences. -/
structure AIState where
  height : ℕ
  width : ℕ
  moves_made : Finset Cell
  safes : Finset Cell
  mines : Finset Cell
  knowledge : List Sentence
  deriving DecidableEq

/-- `MinesweeperAI.__init__(height, width)` (lines 147-161). -/
def AIState.init (h w : ℕ) : AIState :=
  ⟨h, w, ∅, ∅, ∅, []⟩

/-- `MinesweeperAI.mark_mine` (lines 163-171): add the cell to `mines` and to
`moves_made`, and call `Sentence.mark_mine` on every sentence. -/
def AIState.mark_mine (st : AIState) (c : Cell) : AIState :=
  { st with
    mines := insert c st.mines
    moves_made := insert c st.moves_made
    knowledge := st.knowledge.map (fun s => s.mark_mine c) }

/-- `MinesweeperAI.mark_safe` (lines 173-180): add the cell to `safes` and
call `Sentence.mark_safe` on every sentence (`moves_made` untouched). -/
def AIState.mark_safe (st : AIState) (c : Cell) : AIState :=
  { st with
    safes := insert c st.safes
    knowledge := st.knowledge.map (fun s => s.mark_safe c) }

/-- The full board, as built by the `virtual_board_cells` loops (all `(i, j)`
with `0 <= i < height` and `0 <= j < width`). -/
def boardCells (h w : ℕ) : Finset Cell :=
  (Finset.range h ×ˢ Finset.range w).image (fun p => ((p.1 : ℤ), (p.2 : ℤ)))

/-- `MinesweeperAI.get_neighboring_cells` (lines 335-379): each of the eight
offsets of `cell` is added iff it lies on the board (the source tests
membership in the list of all board cells). -/
def get_neighboring_cells (h w : ℕ) (cell : Cell) : Finset Cell :=
  ({(cell.1 - 1, cell.2), (cell.1 + 1, cell.2), (cell.1, cell.2 - 1),
    (cell.1 - 1, cell.2 - 1), (cell.1 + 1, cell.2 - 1), (cell.1, cell.2 + 1),
    (cell.1 - 1, cell.2 + 1), (cell.1 + 1, cell.2 + 1)} : Finset Cell).filter
    (fun c => c ∈ boardCells h w)

/-- `MinesweeperAI.check_which_neighbor_cells_are_safe` (lines 382-389):
if `count` equals the number of neighbors already in `mines`, the remaining
neighbors are safe; otherwise returns the empty set. -/
def check_which_neighbor_cells_are_safe (st : AIState) (cell : Cell) (count : ℤ) :
    Finset Cell :=
  let nbrs := get_neighboring_cells st.height st.width cell
  let nm := nbrs ∩ st.mines
  if count = (nm.card : ℤ) then nbrs \ nm else ∅

/-- `MinesweeperAI.remove_mine_from_sentences_with_counts_greater_than_1`
(lines 393-399): for every sentence with `count > 1` containing the cell,
remove the cell and decrement the count.  (The Boolean the Python method
returns is never used, so it is dropped.) -/
def remove_mine_from_counts_gt_one (st : AIState) (c : Cell) : AIState :=
  { st with
    knowledge := st.knowledge.map (fun s =>
      if 1 < s.count ∧ c ∈ s.cells then ⟨s.cells.erase c, s.count - 1⟩ else s) }

/-! ### `add_knowledge` (lines 187-278), split into its sequential phases. -/

/-- Lines 206-228 of `add_knowledge`: compute the neighbors and take the
three-way branch on `count` (mark all neighbors safe / mark all neighbors
mines / append a reduced sentence).  `st2` is the state after the clue cell
has been recorded and marked safe.  The source appends the new sentence
unconditionally, even when its cell set is empty.  Set iteration order is
fixed by `cellLe`-sorting; all proved properties are insensitive to it. -/
def branchCore (st2 : AIState) (cell : Cell) (count : ℤ) : AIState :=
  let nbrs := get_neighboring_cells st2.height st2.width cell
  if count = 0 then
    (sortCells nbrs).foldl AIState.mark_safe st2
  else if count = (nbrs.card : ℤ) then
    (sortCells nbrs).foldl AIState.mark_mine st2
  else
    let u := nbrs \ st2.safes
    let inter := u ∩ st2.mines
    if 0 < inter.card ∧ 0 < count then
      { st2 with knowledge := st2.knowledge ++ [⟨u \ inter, count - (inter.card : ℤ)⟩] }
    else
      { st2 with knowledge := st2.knowledge ++ [⟨u, count⟩] }

/-- Lines 203-228 of `add_knowledge`: add the cell to `moves_made`, mark it
safe, then run `branchCore`. -/
def branchPhase (st : AIState) (cell : Cell) (count : ℤ) : AIState :=
  branchCore ({ st with moves_made := insert cell st.moves_made }.mark_safe cell)
    cell count

/-- Lines 233-238: for every sentence with `count > 0`, remove every cell of
`safes` from its cell set (count unchanged). -/
def sweepPhase (st : AIState) : AIState :=
  { st with
    knowledge := st.knowledge.map (fun s =>
      if 0 < s.count then ⟨s.cells \ st.safes, s.count⟩ else s) }

/-- Lines 241-252: collect every cell of every sentence with `count > 0` and
`len(cells) == count` into `a_mine_cell_list` (knowledge order, cells in
`cellLe` order), then for each collected cell call `mark_mine` followed by
`remove_mine_from_sentences_with_counts_greater_than_1`. -/
def exactMatchPhase (st : AIState) : AIState :=
  let mineCellList :=
    (st.knowledge.filter (fun s =>
      decide (0 < s.count ∧ (s.cells.card : ℤ) = s.count))).flatMap
      (fun s => sortCells s.cells)
  mineCellList.foldl
    (fun acc c => remove_mine_from_counts_gt_one (acc.mark_mine c) c) st

/-- Lines 256-260: for every sentence with `count == 1`, a single cell, and a
nonempty `known_mines()`, pop that cell and `mark_mine` it.  Because
`known_mines()` (as written) is empty unless `count == 0`, the condition is
unsatisfiable and the body never runs, so iterating over the entry snapshot
of `knowledge` is equivalent to Python's live iteration. -/
def singletonMinePhase (st : AIState) : AIState :=
  st.knowledge.foldl
    (fun acc s =>
      if s.count = (1 : ℤ) ∧ s.cells.card = 1 ∧ 0 < s.known_mines.card then
        match pick s.cells with
        | some c => acc.mark_mine c
        | none => acc
      else acc) st

/-- Lines 263-268: for every sentence with `count == 0` and a nonempty cell
set, iterate over `known_safes()` marking cells safe.  Because
`known_safes()` (as written) is empty unless `count > 0`, the iteration body
never runs (the Python body `self.mark_safe(safe_cell.pop())` would in fact
raise `AttributeError` on a tuple if it ever did; it is modelled as marking
the cell safe, the closest total behaviour, and proved unreachable). -/
def zeroCountPhase (st : AIState) : AIState :=
  st.knowledge.foldl
    (fun acc s =>
      if s.count = 0 ∧ 0 < s.cells.card then
        (sortCells s.known_safes).foldl AIState.mark_safe acc
      else acc) st

/-- Lines 273-278: if the original `count > 0`, mark safe every cell returned
by `check_which_neighbor_cells_are_safe` (the `len > 0` guard in the source
is redundant and dropped). -/
def neighborCompletionPhase (st : AIState) (cell : Cell) (count : ℤ) : AIState :=
  if 0 < count then
    (sortCells (check_which_neighbor_cells_are_safe st cell count)).foldl
      AIState.mark_safe st
  else st

/-- `MinesweeperAI.add_knowledge(cell, count)` (lines 187-278): the phases in
source order. -/
def add_knowledge (st : AIState) (cell : Cell) (count : ℤ) : AIState :=
  neighborCompletionPhase
    (zeroCountPhase
      (singletonMinePhase
        (exactMatchPhase
          (sweepPhase
            (branchPhase st cell count)))))
    cell count

/-- `MinesweeperAI.make_safe_move` (lines 281-296): copies `safes`, removes
`moves_made`, returns `None` if nothing is left and an arbitrary (`pop`)
element otherwise.  The source only reads engine state (it works on a copy),
so it is embedded as a pure function of the state. -/
def make_safe_move (st : AIState) : Option Cell :=
  let possible := st.safes \ st.moves_made
  if possible.card < 1 then none else pick possible

/-- The one runtime error the embedding needs: Python's `TypeError`
(`unhashable type: 'set'`). -/
inductive PyError where
  | typeError
  deriving DecidableEq

/-- `MinesweeperAI.make_random_move` (lines 300-332): build the board minus
`moves_made`; collect the *cell sets* (not cells) of every sentence with
`count == len(cells) > 0` into the list `know_mine_cells`; then evaluate
`set(know_mine_cells)`.  Hashing a `set` raises `TypeError`, so the call
fails whenever that list is nonempty; otherwise `set([])` is empty, the
difference is a no-op, and an arbitrary (`pop`) remaining cell (or `None`)
is returned. -/
def make_random_move (st : AIState) : Except PyError (Option Cell) :=
  let virtual_board_cells := (boardCells st.height st.width) \ st.moves_made
  let know_mine_cells := st.knowledge.filter (fun s =>
    decide (s.count = (s.cells.card : ℤ) ∧ 0 < s.cells.card))
  if know_mine_cells = [] then
    .ok (if 0 < virtual_board_cells.card then pick virtual_board_cells else none)
  else
    .error .typeError

/-- Running a sequence of `add_knowledge` calls. -/
def runCalls (st : AIState) (calls : List (Cell × ℤ)) : AIState :=
  calls.foldl (fun acc p => add_knowledge acc p.1 p.2) st

/-- A clue list is consistent with a mine placement `M` when each clue's
count is the true number of mines among the clue cell's in-bounds
neighbors. -/
def ConsistentCalls (h w : ℕ) (M : Finset Cell) (calls : List (Cell × ℤ)) : Prop :=
  ∀ p ∈ calls, p.2 = (((get_neighboring_cells h w p.1) ∩ M).card : ℤ)

instance ConsistentCalls.instDecidable (h w : ℕ) (M : Finset Cell)
    (calls : List (Cell × ℤ)) : Decidable (ConsistentCalls h w M calls) :=
  inferInstanceAs
    (Decidable (∀ p ∈ calls, p.2 = (((get_neighboring_cells h w p.1) ∩ M).card : ℤ)))

/-! ## General lemmas about the engine operations -/

theorem foldl_eq_self {α β : Type} (f : β → α → β) (l : List α) (b : β)
    (hf : ∀ x ∈ l, ∀ acc, f acc x = acc) : l.foldl f b = b := by
  induction l generalizing b with
  | nil => rfl
  | cons x xs ih =>
    rw [List.foldl_cons, hf x (List.mem_cons_self x xs)]
    exact ih b (fun y hy acc => hf y (List.mem_cons_of_mem x hy) acc)

/-- The singleton-mine pass (lines 256-260) never fires: its guard demands a
sentence with `count == 1` whose `known_mines()` is nonempty, but
`known_mines()` (as written in the source) is empty whenever `count ≠ 0`. -/
theorem singletonMinePhase_eq_self (st : AIState) : singletonMinePhase st = st := by
  unfold singletonMinePhase
  apply foldl_eq_self
  intro s _ acc
  rw [if_neg]
  rintro ⟨h1, _, h3⟩
  unfold Sentence.known_mines at h3
  rw [if_neg (by omega : ¬s.count = 0)] at h3
  simp at h3

/-- The zero-count sweep (lines 263-268) never marks anything: it iterates
over `known_safes()` of a sentence with `count == 0`, but `known_safes()`
(as written in the source) is empty whenever `count` is not positive. -/
theorem zeroCountPhase_eq_self (st : AIState) : zeroCountPhase st = st := by
  unfold zeroCountPhase
  apply foldl_eq_self
  intro s _ acc
  split
  · next hcond =>
    have hks : s.known_safes = ∅ := by
      unfold Sentence.known_safes
      rw [if_neg]
      rintro ⟨h0, _⟩
      omega
    rw [hks]
    rfl
  · rfl

/-- Engine state evolution across any of the mutation helpers: the board
dimensions are fixed and `safes`, `moves_made`, `mines` only grow. -/
def Progresses (st st' : AIState) : Prop :=
  st.height = st'.height ∧ st.width = st'.width ∧
  st.safes ⊆ st'.safes ∧ st.moves_made ⊆ st'.moves_made ∧ st.mines ⊆ st'.mines

theorem Progresses.refl (st : AIState) : Progresses st st :=
  ⟨rfl, rfl, Finset.Subset.refl _, Finset.Subset.refl _, Finset.Subset.refl _⟩

theorem Progresses.trans {a b c : AIState}
    (h1 : Progresses a b) (h2 : Progresses b c) : Progresses a c :=
  ⟨h1.1.trans h2.1, h1.2.1.trans h2.2.1, h1.2.2.1.trans h2.2.2.1,
   h1.2.2.2.1.trans h2.2.2.2.1, h1.2.2.2.2.trans h2.2.2.2.2⟩

theorem progresses_mark_safe (st : AIState) (c : Cell) :
    Progresses st (st.mark_safe c) :=
  ⟨rfl, rfl, Finset.subset_insert _ _, Finset.Subset.refl _, Finset.Subset.refl _⟩

theorem progresses_mark_mine (st : AIState) (c : Cell) :
    Progresses st (st.mark_mine c) :=
  ⟨rfl, rfl, Finset.Subset.refl _, Finset.subset_insert _ _, Finset.subset_insert _ _⟩

theorem progresses_remove_gt_one (st : AIState) (c : Cell) :
    Progresses st (remove_mine_from_counts_gt_one st c) :=
  ⟨rfl, rfl, Finset.Subset.refl _, Finset.Subset.refl _, Finset.Subset.refl _⟩

theorem progresses_knowledge_set (st : AIState) (k : List Sentence) :
    Progresses st { st with knowledge := k } :=
  ⟨rfl, rfl, Finset.Subset.refl _, Finset.Subset.refl _, Finset.Subset.refl _⟩

theorem progresses_foldl {f : AIState → Cell → AIState}
    (hf : ∀ st c, Progresses st (f st c)) (l : List Cell) (st : AIState) :
    Progresses st (l.foldl f st) := by
  induction l generalizing st with
  | nil => exact Progresses.refl st
  | cons x xs ih => exact (hf st x).trans (ih (f st x))

theorem progresses_branchCore (st2 : AIState) (cell : Cell) (count : ℤ) :
    Progresses st2 (branchCore st2 cell count) := by
  unfold branchCore
  dsimp only
  split
  · exact progresses_foldl progresses_mark_safe _ _
  split
  · exact progresses_foldl progresses_mark_mine _ _
  split
  · exact progresses_knowledge_set _ _
  · exact progresses_knowledge_set _ _

theorem progresses_branchPhase (st : AIState) (cell : Cell) (count : ℤ) :
    Progresses ({ st with moves_made := insert cell st.moves_made }.mark_safe cell)
      (branchPhase st cell count) :=
  progresses_branchCore _ cell count

theorem progresses_sweepPhase (st : AIState) : Progresses st (sweepPhase st) :=
  progresses_knowledge_set _ _

theorem progresses_exactMatchPhase (st : AIState) :
    Progresses st (exactMatchPhase st) := by
  unfold exactMatchPhase
  exact progresses_foldl
    (fun acc c => (progresses_mark_mine acc c).trans
      (progresses_remove_gt_one (acc.mark_mine c) c)) _ _

theorem progresses_neighborCompletionPhase (st : AIState) (cell : Cell)
    (count : ℤ) : Progresses st (neighborCompletionPhase st cell count) := by
  unfold neighborCompletionPhase
  split
  · exact progresses_foldl progresses_mark_safe _ _
  · exact Progresses.refl st

theorem progresses_add_knowledge (st : AIState) (cell : Cell) (count : ℤ) :
    Progresses ({ st with moves_made := insert cell st.moves_made }.mark_safe cell)
      (add_knowledge st cell count) := by
  unfold add_knowledge
  refine (progresses_branchPhase st cell count).trans ?_
  refine (progresses_sweepPhase _).trans ?_
  refine (progresses_exactMatchPhase _).trans ?_
  rw [singletonMinePhase_eq_self, zeroCountPhase_eq_self]
  exact progresses_neighborCompletionPhase _ cell count

/-! ## Soundness with respect to a fixed mine placement (claim C6) -/

/-- Semantic soundness of an engine state for a mine placement `M`:
dimensions match, every confirmed mine is a true mine, every confirmed safe
cell is a true non-mine, and every sentence's count is the true number of
mines among its cells. -/
def SoundState (h w : ℕ) (M : Finset Cell) (st : AIState) : Prop :=
  st.height = h ∧ st.width = w ∧
  st.mines ⊆ M ∧
  (∀ c ∈ st.safes, c ∉ M) ∧
  (∀ s ∈ st.knowledge, ((s.cells ∩ M).card : ℤ) = s.count)

theorem sdiff_inter_of_avoids {A S M : Finset Cell} (hS : ∀ c ∈ S, c ∉ M) :
    (A \ S) ∩ M = A ∩ M := by
  ext x
  simp only [Finset.mem_inter, Finset.mem_sdiff]
  constructor
  · rintro ⟨⟨hx, _⟩, hm⟩
    exact ⟨hx, hm⟩
  · rintro ⟨hx, hm⟩
    exact ⟨⟨hx, fun hxs => hS x hxs hm⟩, hm⟩

theorem sentence_true_erase_dec {M : Finset Cell} {s : Sentence} {c : Cell}
    (hc : c ∈ M) (hmem : c ∈ s.cells)
    (hs : ((s.cells ∩ M).card : ℤ) = s.count) :
    (((s.cells.erase c) ∩ M).card : ℤ) = s.count - 1 := by
  rw [Finset.erase_inter]
  have hcm : c ∈ s.cells ∩ M := Finset.mem_inter.mpr ⟨hmem, hc⟩
  rw [Finset.card_erase_of_mem hcm]
  have hpos : 0 < (s.cells ∩ M).card := Finset.card_pos.mpr ⟨c, hcm⟩
  omega

theorem sound_mark_safe {h w : ℕ} {M : Finset Cell} {st : AIState} {c : Cell}
    (hc : c ∉ M) (hs : SoundState h w M st) :
    SoundState h w M (st.mark_safe c) := by
  obtain ⟨hh, hw, hm, hsafe, hk⟩ := hs
  refine ⟨hh, hw, hm, ?_, ?_⟩
  · intro x hx
    rcases Finset.mem_insert.mp hx with rfl | hx
    · exact hc
    · exact hsafe x hx
  · intro s hsmem
    rw [AIState.mark_safe, List.mem_map] at hsmem
    obtain ⟨t, ht, rfl⟩ := hsmem
    unfold Sentence.mark_safe
    split
    · dsimp only
      rw [Finset.erase_inter,
        Finset.erase_eq_of_not_mem (fun hmem => hc (Finset.mem_inter.mp hmem).2)]
      exact hk t ht
    · exact hk t ht

theorem sound_mark_mine {h w : ℕ} {M : Finset Cell} {st : AIState} {c : Cell}
    (hc : c ∈ M) (hs : SoundState h w M st) :
    SoundState h w M (st.mark_mine c) := by
  obtain ⟨hh, hw, hm, hsafe, hk⟩ := hs
  refine ⟨hh, hw, ?_, hsafe, ?_⟩
  · intro x hx
    rcases Finset.mem_insert.mp hx with rfl | hx
    · exact hc
    · exact hm hx
  · intro s hsmem
    rw [AIState.mark_mine, List.mem_map] at hsmem
    obtain ⟨t, ht, rfl⟩ := hsmem
    unfold Sentence.mark_mine
    split
    · next hmem =>
      dsimp only
      rw [sentence_true_erase_dec hc hmem (hk t ht)]
    · exact hk t ht

theorem sound_remove_gt_one {h w : ℕ} {M : Finset Cell} {st : AIState} {c : Cell}
    (hc : c ∈ M) (hs : SoundState h w M st) :
    SoundState h w M (remove_mine_from_counts_gt_one st c) := by
  obtain ⟨hh, hw, hm, hsafe, hk⟩ := hs
  refine ⟨hh, hw, hm, hsafe, ?_⟩
  intro s hsmem
  rw [remove_mine_from_counts_gt_one, List.mem_map] at hsmem
  obtain ⟨t, ht, rfl⟩ := hsmem
  split
  · next hcond =>
    dsimp only
    rw [sentence_true_erase_dec hc hcond.2 (hk t ht)]
  · exact hk t ht

theorem sound_foldl_mark_safe {h w : ℕ} {M : Finset Cell} (l : List Cell)
    (hl : ∀ c ∈ l, c ∉ M) {st : AIState} (hs : SoundState h w M st) :
    SoundState h w M (l.foldl AIState.mark_safe st) := by
  induction l generalizing st with
  | nil => exact hs
  | cons x xs ih =>
    exact ih (fun c hc => hl c (List.mem_cons_of_mem x hc))
      (sound_mark_safe (hl x (List.mem_cons_self x xs)) hs)

theorem sound_foldl_mark_mine {h w : ℕ} {M : Finset Cell} (l : List Cell)
    (hl : ∀ c ∈ l, c ∈ M) {st : AIState} (hs : SoundState h w M st) :
    SoundState h w M (l.foldl AIState.mark_mine st) := by
  induction l generalizing st with
  | nil => exact hs
  | cons x xs ih =>
    exact ih (fun c hc => hl c (List.mem_cons_of_mem x hc))
      (sound_mark_mine (hl x (List.mem_cons_self x xs)) hs)

theorem sound_foldl_mine_step {h w : ℕ} {M : Finset Cell} (l : List Cell)
    (hl : ∀ c ∈ l, c ∈ M) {st : AIState} (hs : SoundState h w M st) :
    SoundState h w M
      (l.foldl (fun acc c => remove_mine_from_counts_gt_one (acc.mark_mine c) c) st) := by
  induction l generalizing st with
  | nil => exact hs
  | cons x xs ih =>
    refine ih (fun c hc => hl c (List.mem_cons_of_mem x hc)) ?_
    exact sound_remove_gt_one (hl x (List.mem_cons_self x xs))
      (sound_mark_mine (hl x (List.mem_cons_self x xs)) hs)

theorem sdiff_inter_right (A B M : Finset Cell) : (A \ B) ∩ M = (A ∩ M) \ B := by
  ext x
  simp only [Finset.mem_inter, Finset.mem_sdiff]
  tauto

theorem sound_branchCore {h w : ℕ} {M : Finset Cell} {st2 : AIState}
    {cell : Cell} {count : ℤ}
    (hcnt : count = (((get_neighboring_cells h w cell) ∩ M).card : ℤ))
    (hs2 : SoundState h w M st2) :
    SoundState h w M (branchCore st2 cell count) := by
  unfold branchCore
  dsimp only
  have hnb : get_neighboring_cells st2.height st2.width cell =
      get_neighboring_cells h w cell := by
    rw [hs2.1, hs2.2.1]
  rw [hnb]
  split
  · next h0 =>
    refine sound_foldl_mark_safe _ ?_ hs2
    intro x hx
    rw [mem_sortCells] at hx
    intro hxM
    have hmem : x ∈ get_neighboring_cells h w cell ∩ M :=
      Finset.mem_inter.mpr ⟨hx, hxM⟩
    have hzero : (get_neighboring_cells h w cell ∩ M).card = 0 := by omega
    rw [Finset.card_eq_zero] at hzero
    rw [hzero] at hmem
    exact absurd hmem (Finset.not_mem_empty x)
  split
  · next hfull =>
    refine sound_foldl_mark_mine _ ?_ hs2
    intro x hx
    rw [mem_sortCells] at hx
    have hsub : get_neighboring_cells h w cell ∩ M ⊆ get_neighboring_cells h w cell :=
      Finset.inter_subset_left
    have hbig : get_neighboring_cells h w cell ∩ M = get_neighboring_cells h w cell :=
      Finset.eq_of_subset_of_card_le hsub (by omega)
    have hsubM : get_neighboring_cells h w cell ⊆ M := by
      intro y hy
      rw [← hbig] at hy
      exact (Finset.mem_inter.mp hy).2
    exact hsubM hx
  -- else: a reduced sentence is appended
  have huM : (get_neighboring_cells h w cell \ st2.safes) ∩ M =
      get_neighboring_cells h w cell ∩ M :=
    sdiff_inter_of_avoids hs2.2.2.2.1
  have hintsub :
      (get_neighboring_cells h w cell \ st2.safes) ∩ st2.mines ⊆
      (get_neighboring_cells h w cell \ st2.safes) ∩ M := by
    intro y hy
    rw [Finset.mem_inter] at hy ⊢
    exact ⟨hy.1, hs2.2.2.1 hy.2⟩
  split
  · next hfire =>
    refine ⟨hs2.1, hs2.2.1, hs2.2.2.1, hs2.2.2.2.1, ?_⟩
    intro s hsmem
    rw [List.mem_append] at hsmem
    rcases hsmem with hsmem | hsmem
    · exact hs2.2.2.2.2 s hsmem
    · rw [List.mem_singleton] at hsmem
      subst hsmem
      dsimp only
      rw [sdiff_inter_right, Finset.card_sdiff hintsub, huM]
      have hle := Finset.card_le_card hintsub
      rw [huM] at hle
      omega
  · next hnofire =>
    refine ⟨hs2.1, hs2.2.1, hs2.2.2.1, hs2.2.2.2.1, ?_⟩
    intro s hsmem
    rw [List.mem_append] at hsmem
    rcases hsmem with hsmem | hsmem
    · exact hs2.2.2.2.2 s hsmem
    · rw [List.mem_singleton] at hsmem
      subst hsmem
      dsimp only
      rw [huM]
      omega

theorem sound_branchPhase {h w : ℕ} {M : Finset Cell} {st : AIState}
    {cell : Cell} {count : ℤ}
    (hcnt : count = (((get_neighboring_cells h w cell) ∩ M).card : ℤ))
    (hcell : cell ∉ M) (hs : SoundState h w M st) :
    SoundState h w M (branchPhase st cell count) := by
  unfold branchPhase
  exact sound_branchCore hcnt
    (sound_mark_safe hcell
      (show SoundState h w M { st with moves_made := insert cell st.moves_made } from hs))

theorem sound_sweepPhase {h w : ℕ} {M : Finset Cell} {st : AIState}
    (hs : SoundState h w M st) : SoundState h w M (sweepPhase st) := by
  obtain ⟨hh, hw, hm, hsafe, hk⟩ := hs
  refine ⟨hh, hw, hm, hsafe, ?_⟩
  intro s hsmem
  rw [sweepPhase, List.mem_map] at hsmem
  obtain ⟨t, ht, rfl⟩ := hsmem
  split
  · dsimp only
    rw [sdiff_inter_of_avoids hsafe]
    exact hk t ht
  · exact hk t ht

theorem sound_exactMatchPhase {h w : ℕ} {M : Finset Cell} {st : AIState}
    (hs : SoundState h w M st) : SoundState h w M (exactMatchPhase st) := by
  unfold exactMatchPhase
  dsimp only
  refine sound_foldl_mine_step _ ?_ hs
  intro c hcmem
  rw [List.mem_flatMap] at hcmem
  obtain ⟨s, hsmem, hcs⟩ := hcmem
  rw [List.mem_filter, decide_eq_true_eq] at hsmem
  obtain ⟨hsk, hpos, hcard⟩ := hsmem
  rw [mem_sortCells] at hcs
  have htrue := hs.2.2.2.2 s hsk
  have hfull : s.cells ∩ M = s.cells :=
    Finset.eq_of_subset_of_card_le Finset.inter_subset_left (by omega)
  have hcm : c ∈ s.cells ∩ M := by rw [hfull]; exact hcs
  exact (Finset.mem_inter.mp hcm).2

theorem sound_neighborCompletionPhase {h w : ℕ} {M : Finset Cell} {st : AIState}
    {cell : Cell} {count : ℤ}
    (hcnt : count = (((get_neighboring_cells h w cell) ∩ M).card : ℤ))
    (hs : SoundState h w M st) :
    SoundState h w M (neighborCompletionPhase st cell count) := by
  unfold neighborCompletionPhase
  split
  · refine sound_foldl_mark_safe _ ?_ hs
    intro x hx
    rw [mem_sortCells] at hx
    unfold check_which_neighbor_cells_are_safe at hx
    dsimp only at hx
    rw [hs.1, hs.2.1] at hx
    split at hx
    · next heq =>
      rw [Finset.mem_sdiff] at hx
      obtain ⟨hxn, hxnm⟩ := hx
      have hsub : get_neighboring_cells h w cell ∩ st.mines ⊆
          get_neighboring_cells h w cell ∩ M := by
        intro y hy
        rw [Finset.mem_inter] at hy ⊢
        exact ⟨hy.1, hs.2.2.1 hy.2⟩
      have heqset : get_neighboring_cells h w cell ∩ st.mines =
          get_neighboring_cells h w cell ∩ M :=
        Finset.eq_of_subset_of_card_le hsub (by omega)
      intro hxM
      refine hxnm ?_
      rw [heqset]
      exact Finset.mem_inter.mpr ⟨hxn, hxM⟩
    · exact absurd hx (Finset.not_mem_empty x)
  · exact hs

theorem sound_add_knowledge {h w : ℕ} {M : Finset Cell} {st : AIState}
    {cell : Cell} {count : ℤ}
    (hcnt : count = (((get_neighboring_cells h w cell) ∩ M).card : ℤ))
    (hcell : cell ∉ M) (hs : SoundState h w M st) :
    SoundState h w M (add_knowledge st cell count) := by
  unfold add_knowledge
  rw [singletonMinePhase_eq_self, zeroCountPhase_eq_self]
  exact sound_neighborCompletionPhase hcnt
    (sound_exactMatchPhase (sound_sweepPhase (sound_branchPhase hcnt hcell hs)))

theorem sound_runCalls {h w : ℕ} {M : Finset Cell} {calls : List (Cell × ℤ)}
    (hc : ∀ p ∈ calls,
      p.2 = (((get_neighboring_cells h w p.1) ∩ M).card : ℤ) ∧ p.1 ∉ M)
    {st : AIState} (hs : SoundState h w M st) :
    SoundState h w M (runCalls st calls) := by
  induction calls generalizing st with
  | nil => exact hs
  | cons x xs ih =>
    exact ih (fun p hp => hc p (List.mem_cons_of_mem x hp))
      (sound_add_knowledge (hc x (List.mem_cons_self x xs)).1
        (hc x (List.mem_cons_self x xs)).2 hs)

theorem sound_init (h w : ℕ) (M : Finset Cell) :
    SoundState h w M (AIState.init h w) :=
  ⟨rfl, rfl, Finset.empty_subset M,
   fun c hc => absurd hc (Finset.not_mem_empty c),
   fun s hs => absurd hs (List.not_mem_nil s)⟩

theorem sdiff_inter_self_cells (u t : Finset Cell) : u \ (u ∩ t) = u \ t := by
  ext x
  simp only [Finset.mem_sdiff, Finset.mem_inter]
  tauto

theorem sdiff_eq_self_of_inter_empty {u t : Finset Cell} (h : u ∩ t = ∅) :
    u \ t = u := by
  ext x
  rw [Finset.mem_sdiff]
  constructor
  · rintro ⟨hx, _⟩
    exact hx
  · intro hx
    refine ⟨hx, fun hm => ?_⟩
    have hxm : x ∈ u ∩ t := Finset.mem_inter.mpr ⟨hx, hm⟩
    rw [h] at hxm
    exact absurd hxm (Finset.not_mem_empty x)

/-! ## The claims -/

/-- C1: the claim states that `knownMines()` returns the full cell set iff
`count == |cells| > 0` and is empty otherwise.  The source's `known_mines`
has the swapped body: on the sentence `{(0,0)} = 1` (one cell, one mine) it
returns the empty set although the claim demands the full cell set, and on
`{(0,0)} = 0` it returns the full cell set although the claim demands the
empty set.  This contradicts the method's own docstring ("cells known to be
mines"). -/
theorem C1_known_mines_at_failing_input :
    Sentence.known_mines ⟨{((0:ℤ), (0:ℤ))}, 1⟩ = ∅ ∧
    Sentence.known_mines ⟨{((0:ℤ), (0:ℤ))}, 0⟩ = {((0:ℤ), (0:ℤ))} := by
  constructor <;> decide

/-- C2: the claim states that `knownSafes()` returns the full cell set iff
`count == 0` and is empty otherwise.  The source's `known_safes` has the
swapped body: on `{(0,0)} = 0` it returns the empty set although the claim
demands the full cell set, and on `{(0,0)} = 1` it returns the full cell set
although the claim demands the empty set.  This contradicts the method's own
docstring ("cells known to be safe"). -/
theorem C2_known_safes_at_failing_input :
    Sentence.known_safes ⟨{((0:ℤ), (0:ℤ))}, 0⟩ = ∅ ∧
    Sentence.known_safes ⟨{((0:ℤ), (0:ℤ))}, 1⟩ = {((0:ℤ), (0:ℤ))} := by
  constructor <;> decide

/-- A 1×2 board whose knowledge holds the all-mine sentence `{(0,1)} = 1`;
the cell `(0,0)` is still available, so the claim C3 demands that
`make_random_move` return a cell (or at least not fail). -/
def c3FailingState : AIState :=
  ⟨1, 2, ∅, ∅, ∅, [⟨{((0:ℤ), (1:ℤ))}, 1⟩]⟩

/-- C3: the claim states that `make_random_move` returns a cell outside
`moves_made` and outside every all-mine sentence, or `none` exactly when no
such cell exists, without mutating state.  On any state whose knowledge
contains an all-mine sentence the source instead raises `TypeError`
(`set(know_mine_cells)` hashes a `set`), even though an eligible cell
exists — here `(0,0)` is on the board and unexcluded. -/
theorem C3_random_move_raises_at_failing_input :
    make_random_move c3FailingState = .error .typeError ∧
    ((0:ℤ), (0:ℤ)) ∈
      boardCells c3FailingState.height c3FailingState.width \
        c3FailingState.moves_made ∧
    ((0:ℤ), (0:ℤ)) ∉ c3FailingState.moves_made ∧
    (∀ s ∈ c3FailingState.knowledge, ((0:ℤ), (0:ℤ)) ∉ s.cells) := by
  refine ⟨rfl, by decide, by decide, by decide⟩

/-- A 3×3 board whose knowledge holds the sentence `{(2,2)} = 0` (count zero,
nonempty cell set); `(2,2)` is not adjacent to the clue cell `(0,0)`. -/
def c4FailingState : AIState :=
  ⟨3, 3, ∅, ∅, ∅, [⟨{((2:ℤ), (2:ℤ))}, 0⟩]⟩

/-- C4: the claim states that during every `add_knowledge` call, every cell
of every sentence with `count == 0` and nonempty cells is added to `safes`.
Running `add_knowledge((0,0), 1)` on a state whose knowledge holds
`{(2,2)} = 0` leaves `(2,2)` outside `safes` while the sentence is still
present: the zero-count sweep iterates over `known_safes()`, which (as
written) is empty for a `count == 0` sentence, so it never marks anything —
contradicting the sweep's own comment in the source. -/
theorem C4_zero_count_sweep_marks_nothing :
    (⟨{((2:ℤ), (2:ℤ))}, 0⟩ : Sentence) ∈ c4FailingState.knowledge ∧
    (⟨{((2:ℤ), (2:ℤ))}, 0⟩ : Sentence) ∈
      (add_knowledge c4FailingState ((0:ℤ), (0:ℤ)) 1).knowledge ∧
    ((2:ℤ), (2:ℤ)) ∉ (add_knowledge c4FailingState ((0:ℤ), (0:ℤ)) 1).safes := by
  refine ⟨by decide, by decide, by decide⟩

/-- C5 counterexample: the claim asserts that `mark_mine` preserves
`0 <= count <= |cells|` for *every* sentence satisfying it and every cell.
The well-formed sentence `{(0,0)} = 0` satisfies the invariant, yet
`mark_mine((0,0))` removes the member cell and decrements the count to `-1`,
breaking the lower bound. -/
theorem C5_counterexample :
    (0 : ℤ) ≤ (⟨{((0:ℤ), (0:ℤ))}, 0⟩ : Sentence).count ∧
    (⟨{((0:ℤ), (0:ℤ))}, 0⟩ : Sentence).count ≤
      (((⟨{((0:ℤ), (0:ℤ))}, 0⟩ : Sentence).cells.card) : ℤ) ∧
    (Sentence.mark_mine ⟨{((0:ℤ), (0:ℤ))}, 0⟩ ((0:ℤ), (0:ℤ))).count < 0 := by
  refine ⟨by decide, by decide, by decide⟩

/-- C5 (amended): `mark_mine` removes a member cell and decrements the
count, is a no-op on a non-member, and the result satisfies
`0 <= count <= |cells|` provided the invariant held before *and* the count
is at least 1 whenever the cell is a member (the extra hypothesis the
counterexample forces). -/
theorem C5_mark_mine_invariant (s : Sentence) (c : Cell)
    (h0 : 0 ≤ s.count) (h1 : s.count ≤ (s.cells.card : ℤ))
    (h2 : c ∈ s.cells → 1 ≤ s.count) :
    (c ∈ s.cells → s.mark_mine c = ⟨s.cells.erase c, s.count - 1⟩) ∧
    (c ∉ s.cells → s.mark_mine c = s) ∧
    0 ≤ (s.mark_mine c).count ∧
    (s.mark_mine c).count ≤ (((s.mark_mine c).cells.card) : ℤ) := by
  unfold Sentence.mark_mine
  by_cases hmem : c ∈ s.cells
  · rw [if_pos hmem]
    refine ⟨fun _ => rfl, fun hn => absurd hmem hn, ?_, ?_⟩
    · dsimp only
      have := h2 hmem
      omega
    · dsimp only
      rw [Finset.card_erase_of_mem hmem]
      have hpos : 0 < s.cells.card := Finset.card_pos.mpr ⟨c, hmem⟩
      omega
  · rw [if_neg hmem]
    exact ⟨fun hmm => absurd hmm hmem, fun _ => rfl, h0, h1⟩

/-- Witness for C5 (amended) at the sentence `{(0,0)} = 1` and cell
`(0,0)`. -/
theorem C5_mark_mine_invariant_witness :
    0 ≤ (Sentence.mark_mine ⟨{((0:ℤ), (0:ℤ))}, 1⟩ ((0:ℤ), (0:ℤ))).count ∧
    (Sentence.mark_mine ⟨{((0:ℤ), (0:ℤ))}, 1⟩ ((0:ℤ), (0:ℤ))).count ≤
      (((Sentence.mark_mine ⟨{((0:ℤ), (0:ℤ))}, 1⟩ ((0:ℤ), (0:ℤ))).cells.card) : ℤ) :=
  ⟨(C5_mark_mine_invariant ⟨{((0:ℤ), (0:ℤ))}, 1⟩ ((0:ℤ), (0:ℤ))
      (by decide) (by decide) (fun _ => by decide)).2.2.1,
   (C5_mark_mine_invariant ⟨{((0:ℤ), (0:ℤ))}, 1⟩ ((0:ℤ), (0:ℤ))
      (by decide) (by decide) (fun _ => by decide)).2.2.2⟩


/-- The clue sequence of the C6 counterexample: on a 1×2 board with the true
mine set `{(0,1)}`, reveal `(0,1)` (a mine cell, clue 0) and then `(0,0)`
(clue 1).  Both counts are the true neighbor-mine counts. -/
def c6Calls : List (Cell × ℤ) :=
  [(((0:ℤ), (1:ℤ)), 0), (((0:ℤ), (0:ℤ)), 1)]

def c6Mines : Finset Cell := {((0:ℤ), (1:ℤ))}

/-- C6 counterexample: the claim's consistency condition only constrains the
counts, so it admits revealing the mine cell `(0,1)` itself.  Doing so marks
`(0,1)` safe; the second clue then marks it a mine, so after the second call
`(0,1)` lies in both `safes` and `mines` and the two sets are not
disjoint — refuting the claim as stated. -/
theorem C6_counterexample :
    ConsistentCalls 1 2 c6Mines c6Calls ∧
    ((0:ℤ), (1:ℤ)) ∈ (runCalls (AIState.init 1 2) c6Calls).safes ∧
    ((0:ℤ), (1:ℤ)) ∈ (runCalls (AIState.init 1 2) c6Calls).mines := by
  refine ⟨by decide, by decide, by decide⟩

/-- C6 (amended): for every call sequence whose counts are consistent with a
fixed mine placement `M` *and whose revealed cells are not mines of `M`*
(the extra hypothesis the counterexample forces), after any number of
`add_knowledge` calls from the initial state `safes` and `mines` are
disjoint. -/
theorem C6_safes_mines_disjoint (h w : ℕ) (M : Finset Cell)
    (calls : List (Cell × ℤ)) (hcon : ConsistentCalls h w M calls)
    (hnomine : ∀ p ∈ calls, p.1 ∉ M) :
    (runCalls (AIState.init h w) calls).safes ∩
      (runCalls (AIState.init h w) calls).mines = ∅ := by
  have hs := sound_runCalls (fun p hp => ⟨hcon p hp, hnomine p hp⟩) (sound_init h w M)
  rw [Finset.eq_empty_iff_forall_not_mem]
  intro c hc
  rw [Finset.mem_inter] at hc
  exact hs.2.2.2.1 c hc.1 (hs.2.2.1 hc.2)

/-- Witness for C6 (amended): one consistent mine-free call on a 1×2 board
with no mines. -/
theorem C6_safes_mines_disjoint_witness :
    (runCalls (AIState.init 1 2) [(((0:ℤ), (0:ℤ)), 0)]).safes ∩
      (runCalls (AIState.init 1 2) [(((0:ℤ), (0:ℤ)), 0)]).mines = ∅ :=
  C6_safes_mines_disjoint 1 2 ∅ [(((0:ℤ), (0:ℤ)), 0)] (by decide) (by decide)

/-- A 1×3 board on which both neighbors of `(0,1)` are already known safe;
clue `(0,1)` with count 1 then reduces to an empty cell set. -/
def c7FailingState : AIState :=
  ⟨1, 3, ∅, {((0:ℤ), (0:ℤ)), ((0:ℤ), (2:ℤ))}, ∅, []⟩

/-- C7 counterexample: the claim states that nothing is appended when the
reduced cell set is empty.  With `0 < count = 1 < 2 = |neighbors|`, the call
`add_knowledge((0,1), 1)` on `c7FailingState` appends the sentence
`∅ = 1` anyway: the source's `knowledge.append` is unconditional. -/
theorem C7_counterexample :
    (0 : ℤ) < 1 ∧
    (1 : ℤ) < ((get_neighboring_cells c7FailingState.height
      c7FailingState.width ((0:ℤ), (1:ℤ))).card : ℤ) ∧
    (add_knowledge c7FailingState ((0:ℤ), (1:ℤ)) 1).knowledge =
      [⟨∅, 1⟩] := by
  refine ⟨by decide, by decide, by decide⟩

/-- C7 (amended): when `add_knowledge` is called with
`0 < count < |neighbors|`, the sentence it builds and appends (before the
later passes of the same call mutate the list) has cells
`neighbors \ safes \ mines` (where `safes` already includes the clue cell)
and count `count` minus the number of known mines removed — and it is
appended *unconditionally*, even when the remaining cell set is empty. -/
theorem C7_branch_appends_reduced_sentence (st : AIState) (cell : Cell)
    (count : ℤ) (h0 : 0 < count)
    (h1 : count < ((get_neighboring_cells st.height st.width cell).card : ℤ)) :
    (branchPhase st cell count).knowledge =
      st.knowledge.map (fun s => s.mark_safe cell) ++
        [⟨(get_neighboring_cells st.height st.width cell \
             insert cell st.safes) \ st.mines,
          count - (((get_neighboring_cells st.height st.width cell \
             insert cell st.safes) ∩ st.mines).card : ℤ)⟩] := by
  unfold branchPhase branchCore AIState.mark_safe
  dsimp only
  rw [if_neg (by omega), if_neg (by omega)]
  split
  · next hfire =>
    dsimp only
    rw [sdiff_inter_self_cells]
  · next hnofire =>
    dsimp only
    have hcard0 :
        ((get_neighboring_cells st.height st.width cell \
          insert cell st.safes) ∩ st.mines).card = 0 := by
      by_cases hc : 0 <
          ((get_neighboring_cells st.height st.width cell \
            insert cell st.safes) ∩ st.mines).card
      · exact absurd ⟨hc, h0⟩ hnofire
      · omega
    have hempty := Finset.card_eq_zero.mp hcard0
    rw [hcard0, sdiff_eq_self_of_inter_empty hempty]
    norm_num

/-- Witness for C7 (amended): clue `(0,1)` with count 1 on a fresh 1×3
board. -/
theorem C7_branch_appends_reduced_sentence_witness :
    (branchPhase (AIState.init 1 3) ((0:ℤ), (1:ℤ)) 1).knowledge =
      (AIState.init 1 3).knowledge.map (fun s => s.mark_safe ((0:ℤ), (1:ℤ))) ++
        [⟨(get_neighboring_cells (AIState.init 1 3).height
             (AIState.init 1 3).width ((0:ℤ), (1:ℤ)) \
             insert ((0:ℤ), (1:ℤ)) (AIState.init 1 3).safes) \
             (AIState.init 1 3).mines,
          1 - (((get_neighboring_cells (AIState.init 1 3).height
             (AIState.init 1 3).width ((0:ℤ), (1:ℤ)) \
             insert ((0:ℤ), (1:ℤ)) (AIState.init 1 3).safes) ∩
             (AIState.init 1 3).mines).card : ℤ)⟩] :=
  C7_branch_appends_reduced_sentence (AIState.init 1 3) ((0:ℤ), (1:ℤ)) 1
    (by decide) (by decide)

/-- Scenario D of claim C8: `safes = {(0,0),(1,1)}`, `moves_made = {(0,0)}`. -/
def scenarioD1 : AIState :=
  ⟨2, 2, {((0:ℤ), (0:ℤ))}, {((0:ℤ), (0:ℤ)), ((1:ℤ), (1:ℤ))}, ∅, []⟩

/-- Scenario D after `(1,1)` has also been played. -/
def scenarioD2 : AIState :=
  ⟨2, 2, {((0:ℤ), (0:ℤ)), ((1:ℤ), (1:ℤ))},
   {((0:ℤ), (0:ℤ)), ((1:ℤ), (1:ℤ))}, ∅, []⟩

/-- C8: `make_safe_move` returns a cell of `safes` outside `moves_made`
whenever one exists and `none` exactly when none exists (the source works on
a copy of `safes`, so the state is untouched — the embedding is a pure
function of the state).  On Scenario D it returns `(1,1)`, and `none` once
`(1,1)` is also in `moves_made`. -/
theorem C8_make_safe_move_spec :
    (∀ st : AIState, ∀ c : Cell, make_safe_move st = some c →
      c ∈ st.safes ∧ c ∉ st.moves_made) ∧
    (∀ st : AIState, make_safe_move st = none ↔ st.safes \ st.moves_made = ∅) ∧
    make_safe_move scenarioD1 = some ((1:ℤ), (1:ℤ)) ∧
    make_safe_move scenarioD2 = none := by
  refine ⟨?_, ?_, by decide, by decide⟩
  · intro st c hc
    unfold make_safe_move at hc
    dsimp only at hc
    split at hc
    · cases hc
    · have hmem := pick_mem hc
      rw [Finset.mem_sdiff] at hmem
      exact hmem
  · intro st
    unfold make_safe_move
    dsimp only
    split
    · next hlt =>
      constructor
      · intro _
        have hz : (st.safes \ st.moves_made).card = 0 := by omega
        exact Finset.card_eq_zero.mp hz
      · intro _
        rfl
    · next hge =>
      constructor
      · intro hp
        exact pick_eq_none_iff.mp hp
      · intro hemp
        rw [hemp] at hge
        simp at hge

/-- Witness for C8 at Scenario D: `(1,1)` is indeed a safe unplayed cell. -/
theorem C8_make_safe_move_spec_witness :
    ((1:ℤ), (1:ℤ)) ∈ scenarioD1.safes ∧
    ((1:ℤ), (1:ℤ)) ∉ scenarioD1.moves_made :=
  C8_make_safe_move_spec.1 scenarioD1 ((1:ℤ), (1:ℤ))
    C8_make_safe_move_spec.2.2.1

/-- A state in which `(0,0)` has already been played. -/
def c9FailingState : AIState :=
  ⟨2, 2, {((0:ℤ), (0:ℤ))}, ∅, ∅, []⟩

/-- C9 counterexample: the claim demands that `add_knowledge` fail fast on a
cell already in `moves_made`.  Called on exactly such a cell, the source
performs no validation and raises nothing (the embedding is total because no
code path in `add_knowledge` can raise): it processes the call and updates
the knowledge base (`safes` changes). -/
theorem C9_counterexample :
    ((0:ℤ), (0:ℤ)) ∈ c9FailingState.moves_made ∧
    (add_knowledge c9FailingState ((0:ℤ), (0:ℤ)) 0).safes ≠
      c9FailingState.safes := by
  refine ⟨by decide, by decide⟩

/-- C9 (amended): `add_knowledge` performs no precondition validation at
all: for *every* state, cell and count — including a cell already in
`moves_made` and a count outside `[0, |neighbors|]` — it proceeds normally,
recording the move and marking the clue cell safe. -/
theorem C9_no_validation (st : AIState) (cell : Cell) (count : ℤ) :
    cell ∈ (add_knowledge st cell count).moves_made ∧
    cell ∈ (add_knowledge st cell count).safes := by
  have hp := progresses_add_knowledge st cell count
  constructor
  · exact hp.2.2.2.1 (Finset.mem_insert_self cell st.moves_made)
  · exact hp.2.2.1 (Finset.mem_insert_self cell st.safes)

/-- C10: whenever the knowledge base contains a sentence with
`count == |cells| > 0`, `make_random_move` neither returns a cell nor
`none`: it fails with `TypeError`, because the source inserts each such
sentence's whole (unhashable) cell set as a single element of the exclusion
set. -/
theorem C10_random_move_type_error (st : AIState)
    (hex : ∃ s ∈ st.knowledge, s.count = (s.cells.card : ℤ) ∧ 0 < s.cells.card) :
    make_random_move st = .error .typeError := by
  unfold make_random_move
  dsimp only
  rw [if_neg]
  intro hnil
  obtain ⟨s, hsmem, hcond⟩ := hex
  have hmem : s ∈ st.knowledge.filter (fun s =>
      decide (s.count = (s.cells.card : ℤ) ∧ 0 < s.cells.card)) := by
    rw [List.mem_filter, decide_eq_true_eq]
    exact ⟨hsmem, hcond⟩
  rw [hnil] at hmem
  exact absurd hmem (List.not_mem_nil s)

/-- A 2×2 board whose knowledge holds the all-mine sentence `{(1,1)} = 1`. -/
def c10WitnessState : AIState :=
  ⟨2, 2, ∅, ∅, ∅, [⟨{((1:ℤ), (1:ℤ))}, 1⟩]⟩

/-- Witness for C10 at `c10WitnessState`. -/
theorem C10_random_move_type_error_witness :
    make_random_move c10WitnessState = .error .typeError :=
  C10_random_move_type_error c10WitnessState
    ⟨⟨{((1:ℤ), (1:ℤ))}, 1⟩, by decide, by decide⟩
